import Mathlib

/-!
Shallow embedding of src/ryan-test/gauss.c.

The C file defines two functions on the native 32-bit signed `int`:

  int gauss_ref(int n) {
    if (n == 1) return 1;
    return gauss_ref(n-1) + 1;
  }

  int gauss_closed(int n) {
    return n * (n + 1) /2;
  }

`gauss_ref` is embedded as a fuel-indexed evaluator `gauss_ref_fuel`
over `Int`: on the domain where the recursion terminates (n >= 1) every
intermediate value lies in the 32-bit range whenever `n` does, so plain
integers model the defined executions exactly; `none` means the fuel ran
out, and a result independent of all sufficient fuels is the value of
the terminating recursion.

`gauss_closed` performs a native signed multiplication that can
overflow.  Following the specification option that preserves
wraparound semantics, the arithmetic is embedded with explicit
two's-complement wraparound `wrap32` (reduce modulo 2^32 into
[-2^31, 2^31)); the C division by the literal 2 truncates toward zero,
which is `Int.tdiv`.
-/

/-- Two's-complement wraparound of an integer into [-2^31, 2^31),
modelling the value of a 32-bit signed machine word. -/
def wrap32 (x : Int) : Int := (x + 2 ^ 31) % 2 ^ 32 - 2 ^ 31

/-- Embedding of `gauss_closed` from src/ryan-test/gauss.c: the C
expression `n * (n + 1) / 2` on 32-bit ints, with each intermediate
result wrapped and the division truncating toward zero. -/
def gauss_closed (n : Int) : Int := (wrap32 (n * wrap32 (n + 1))).tdiv 2

/-- Fuel-indexed embedding of the recursive `gauss_ref` from
src/ryan-test/gauss.c: base case `n == 1` returns 1, otherwise the
result of the recursive call at `n - 1`, plus one.  `none` means the
recursion did not reach the base case within the given fuel. -/
def gauss_ref_fuel : Nat → Int → Option Int
  | 0, _ => none
  | fuel + 1, n =>
    if n = 1 then some 1
    else (gauss_ref_fuel fuel (n - 1)).map (fun r => r + 1)

lemma wrap32_eq_self {x : Int} (h1 : -(2 ^ 31) ≤ x) (h2 : x < 2 ^ 31) :
    wrap32 x = x := by
  unfold wrap32
  have h : (x + 2 ^ 31) % 2 ^ 32 = x + 2 ^ 31 :=
    Int.emod_eq_of_lt (by omega) (by omega)
  omega

lemma wrap32_emod (x : Int) : wrap32 x % 2 ^ 32 = x % 2 ^ 32 := by
  unfold wrap32
  omega

lemma wrap32_congr {x y : Int} (h : x % 2 ^ 32 = y % 2 ^ 32) :
    wrap32 x = wrap32 y := by
  unfold wrap32
  omega

lemma wrap32_shift (x : Int) : ∃ k, wrap32 x = x - 2 ^ 32 * k := by
  refine ⟨(x + 2 ^ 31) / 2 ^ 32, ?_⟩
  unfold wrap32
  rw [Int.emod_def]
  ring

/-- Wrapping the inner increment does not change the wrapped product. -/
lemma wrap32_mul_wrap32 (a b : Int) :
    wrap32 (a * wrap32 b) = wrap32 (a * b) := by
  refine wrap32_congr ?_
  rw [Int.mul_emod, wrap32_emod, ← Int.mul_emod]

lemma gauss_closed_wrap (n : Int) :
    gauss_closed n = (wrap32 (n * (n + 1))).tdiv 2 := by
  unfold gauss_closed
  rw [wrap32_mul_wrap32]

lemma gauss_ref_fuel_succ (fuel : Nat) (n : Int) :
    gauss_ref_fuel (fuel + 1) n =
      if n = 1 then some 1
      else (gauss_ref_fuel fuel (n - 1)).map (fun r => r + 1) := rfl

/-- With fuel k + 1 the recursion at input k + 1 reaches the base case
and returns its input. -/
lemma gauss_ref_fuel_eq_self (k : Nat) :
    ∀ n : Int, n = k + 1 → gauss_ref_fuel (k + 1) n = some n := by
  induction k with
  | zero =>
    intro n hn
    subst hn
    simp [gauss_ref_fuel_succ]
  | succ k ih =>
    intro n hn
    have hne : n ≠ 1 := by omega
    have hrec : gauss_ref_fuel (k + 1) (n - 1) = some (n - 1) :=
      ih (n - 1) (by omega)
    rw [gauss_ref_fuel_succ, if_neg hne, hrec]
    simp

lemma gauss_ref_fuel_toNat {n : Int} (h : 1 ≤ n) :
    gauss_ref_fuel n.toNat n = some n := by
  obtain ⟨k, hk⟩ : ∃ k : Nat, n.toNat = k + 1 := ⟨n.toNat - 1, by omega⟩
  rw [hk]
  exact gauss_ref_fuel_eq_self k n (by omega)

/-- With fuel strictly below the input the base case is out of reach. -/
lemma gauss_ref_fuel_short : ∀ (fuel : Nat) (n : Int),
    (fuel : Int) < n → gauss_ref_fuel fuel n = none := by
  intro fuel
  induction fuel with
  | zero => intro n _; rfl
  | succ f ih =>
    intro n hn
    have hne : n ≠ 1 := by push_cast at hn; omega
    have hrec : gauss_ref_fuel f (n - 1) = none := ih (n - 1) (by push_cast at hn ⊢; omega)
    rw [gauss_ref_fuel_succ, if_neg hne, hrec]
    rfl

/-- For inputs below the base case no amount of fuel terminates the
recursion. -/
lemma gauss_ref_fuel_nonpos : ∀ (fuel : Nat) (n : Int),
    n ≤ 0 → gauss_ref_fuel fuel n = none := by
  intro fuel
  induction fuel with
  | zero => intro n _; rfl
  | succ f ih =>
    intro n hn
    have hne : n ≠ 1 := by omega
    have hrec : gauss_ref_fuel f (n - 1) = none := ih (n - 1) (by omega)
    rw [gauss_ref_fuel_succ, if_neg hne, hrec]
    rfl

/-- A result obtained with some fuel persists for any larger fuel. -/
lemma gauss_ref_fuel_mono : ∀ (f1 f2 : Nat) (n v : Int),
    gauss_ref_fuel f1 n = some v → f1 ≤ f2 → gauss_ref_fuel f2 n = some v := by
  intro f1
  induction f1 with
  | zero => intro f2 n v h _; exact absurd h (by simp [gauss_ref_fuel])
  | succ f ih =>
    intro f2 n v h hle
    obtain ⟨g, rfl⟩ : ∃ g : Nat, f2 = g + 1 := ⟨f2 - 1, by omega⟩
    by_cases hn : n = 1
    · rw [gauss_ref_fuel_succ, if_pos hn] at h ⊢
      exact h
    · rw [gauss_ref_fuel_succ, if_neg hn] at h ⊢
      obtain ⟨r, hr, hv⟩ := Option.map_eq_some'.mp h
      rw [ih g (n - 1) r hr (by omega)]
      simpa using hv

/-- The result of the recursion does not depend on which sufficient
fuel was used. -/
lemma gauss_ref_fuel_det {f1 f2 : Nat} {n v1 v2 : Int}
    (h1 : gauss_ref_fuel f1 n = some v1) (h2 : gauss_ref_fuel f2 n = some v2) :
    v1 = v2 := by
  have h1' : gauss_ref_fuel (max f1 f2) n = some v1 :=
    gauss_ref_fuel_mono f1 (max f1 f2) n v1 h1 (le_max_left _ _)
  have h2' : gauss_ref_fuel (max f1 f2) n = some v2 :=
    gauss_ref_fuel_mono f2 (max f1 f2) n v2 h2 (le_max_right _ _)
  rw [h1'] at h2'
  exact Option.some.inj h2'

/-- Twice the value returned by gauss_closed is exactly the wrapped
product: the truncating division by 2 discards no remainder. -/
lemma gauss_closed_exact (n : Int) :
    2 * gauss_closed n = wrap32 (n * wrap32 (n + 1)) := by
  obtain ⟨t, ht⟩ := Int.even_mul_succ_self n
  obtain ⟨k1, hk1⟩ := wrap32_shift (n + 1)
  obtain ⟨k2, hk2⟩ := wrap32_shift (n * wrap32 (n + 1))
  have hq : wrap32 (n * wrap32 (n + 1)) =
      2 * (t - 2 ^ 31 * (n * k1) - 2 ^ 31 * k2) := by
    rw [hk2, hk1]
    linear_combination ht
  unfold gauss_closed
  rw [hq, Int.mul_tdiv_cancel_left _ (by norm_num)]

lemma mul_succ_nonneg (n : Int) : 0 ≤ n * (n + 1) := by
  rcases le_or_lt 0 n with h | h
  · exact mul_nonneg h (by omega)
  · have h1 : 0 ≤ -n := by omega
    have h2 : 0 ≤ -(n + 1) := by omega
    have h3 := mul_nonneg h1 h2
    have h4 : -n * -(n + 1) = n * (n + 1) := by ring
    linarith

/-- On inputs whose product fits in 32 bits the wraparound is the
identity and gauss_closed is the plain truncating quotient. -/
lemma gauss_closed_small {n : Int} (h1 : -46341 ≤ n) (h2 : n ≤ 46340) :
    gauss_closed n = (n * (n + 1)).tdiv 2 := by
  have hb : n * (n + 1) < 2 ^ 31 := by
    nlinarith [mul_nonneg (show (0 : Int) ≤ 46340 - n by omega)
      (show (0 : Int) ≤ n + 46341 by omega)]
  have hn1 : wrap32 (n + 1) = n + 1 := wrap32_eq_self (by omega) (by omega)
  have hnn := mul_succ_nonneg n
  unfold gauss_closed
  rw [hn1, wrap32_eq_self (by omega) hb]

lemma gauss_closed_small_val {n t : Int} (h1 : -46341 ≤ n) (h2 : n ≤ 46340)
    (ht : n * (n + 1) = t + t) : gauss_closed n = t := by
  rw [gauss_closed_small h1 h2, ht, show t + t = 2 * t by ring,
    Int.mul_tdiv_cancel_left _ (by norm_num)]

/-- No product of two consecutive naturals below 2^31 is divisible by
2^32: one factor is odd, and the even one is too small. -/
lemma consecutive_prod_not_dvd {N : Nat} (h2 : 2 ≤ N) (hlt : N ≤ 2 ^ 31 - 1) :
    ¬ (2 ^ 32 ∣ N * (N - 1)) := by
  intro hdvd
  rcases Nat.even_or_odd N with he | ho
  · have hodd : Odd (N - 1) := Nat.Even.sub_odd (by omega) he (by norm_num)
    have hcop : Nat.Coprime (2 ^ 32) (N - 1) :=
      Nat.Coprime.pow_left _ (Nat.coprime_two_left.mpr hodd)
    have hN : 2 ^ 32 ∣ N := hcop.dvd_of_dvd_mul_right hdvd
    have := Nat.le_of_dvd (by omega) hN
    omega
  · have hcop : Nat.Coprime (2 ^ 32) N :=
      Nat.Coprime.pow_left _ (Nat.coprime_two_left.mpr ho)
    have hN : 2 ^ 32 ∣ (N - 1) := hcop.dvd_of_dvd_mul_left hdvd
    have := Nat.le_of_dvd (by omega) hN
    omega

lemma emod_add_one_congr {a c M : Int} (h : a % M = c % M) :
    (a + 1) % M = (c + 1) % M := by
  rw [Int.add_emod, h, ← Int.add_emod]

lemma emod_mul_congr {a b c d M : Int} (h1 : a % M = c % M)
    (h2 : b % M = d % M) : (a * b) % M = (c * d) % M := by
  rw [Int.mul_emod, h1, h2, ← Int.mul_emod]

/-- Within the 32-bit input range above 1, gauss_closed never returns
its argument, even with wraparound in the intermediate product. -/
lemma gauss_closed_ne_self {n : Int} (h1 : 1 < n) (h2 : n ≤ 2 ^ 31 - 1) :
    gauss_closed n ≠ n := by
  intro heq
  have hex := gauss_closed_exact n
  rw [heq] at hex
  have hmod : wrap32 (n * wrap32 (n + 1)) % 2 ^ 32 = (n * (n + 1)) % 2 ^ 32 := by
    rw [wrap32_mul_wrap32, wrap32_emod]
  have h2n : (2 * n) % 2 ^ 32 = 2 * n := Int.emod_eq_of_lt (by omega) (by omega)
  have hdvd : (2 ^ 32 : Int) ∣ n * (n - 1) := by
    refine Int.dvd_of_emod_eq_zero ?_
    have h3 : (n * (n + 1) - 2 * n) % 2 ^ 32 = 0 := by
      rw [Int.sub_emod, ← hmod, ← hex, h2n, sub_self, Int.zero_emod]
    calc (n * (n - 1)) % 2 ^ 32
        = (n * (n + 1) - 2 * n) % 2 ^ 32 := by ring_nf
      _ = 0 := h3
  set N : Nat := n.toNat with hN
  have hn' : (N : Int) = n := Int.toNat_of_nonneg (by omega)
  have hcast : ((N * (N - 1) : Nat) : Int) = n * (n - 1) := by
    have hge : 1 ≤ N := by omega
    push_cast [Nat.cast_sub hge]
    rw [hn']
  have hdvdN : (2 ^ 32 : Nat) ∣ N * (N - 1) := by
    have h4 : ((2 ^ 32 : Nat) : Int) ∣ ((N * (N - 1) : Nat) : Int) := by
      rw [hcast]
      exact_mod_cast hdvd
    exact_mod_cast h4
  exact consecutive_prod_not_dvd (by omega) (by omega) hdvdN

/-- C1: for every n >= 1 the recursion of gauss_ref terminates and
returns n itself (base case gauss_ref(1) = 1, step adds 1 to the
recursive call), and therefore for n > 1 it does not compute the
triangular number n * (n + 1) / 2. -/
theorem C1_gauss_recursive_returns_input (n : Int) (h : 1 ≤ n) :
    gauss_ref_fuel n.toNat n = some n ∧ (1 < n → n ≠ n * (n + 1) / 2) := by
  refine ⟨gauss_ref_fuel_toNat h, ?_⟩
  intro h1 heq
  obtain ⟨t, ht⟩ := Int.even_mul_succ_self n
  have htt : n * (n + 1) / 2 = t := by
    rw [ht, show t + t = 2 * t by ring, Int.mul_ediv_cancel_left _ (by norm_num)]
  rw [htt] at heq
  subst heq
  have h0 : n * (n - 1) = 0 := by linear_combination ht
  rcases mul_eq_zero.mp h0 with h2 | h2 <;> omega

/-- Witness for C1 at n = 5. -/
theorem C1_witness :
    gauss_ref_fuel (5 : Int).toNat 5 = some 5 ∧
      ((1 : Int) < 5 → (5 : Int) ≠ 5 * (5 + 1) / 2) :=
  C1_gauss_recursive_returns_input 5 (by norm_num)

/-- C2: for every n with 1 < n within the signed 32-bit range,
gauss_ref terminates with value n and that value differs from
gauss_closed n: the two implementations disagree for all n > 1. -/
theorem C2_recursive_closed_disagree (n : Int) (h1 : 1 < n)
    (h2 : n ≤ 2 ^ 31 - 1) :
    gauss_ref_fuel n.toNat n = some n ∧ n ≠ gauss_closed n :=
  ⟨gauss_ref_fuel_toNat (by omega),
    fun h => gauss_closed_ne_self h1 h2 h.symm⟩

/-- Witness for C2 at n = 5. -/
theorem C2_witness :
    gauss_ref_fuel (5 : Int).toNat 5 = some 5 ∧ (5 : Int) ≠ gauss_closed 5 :=
  C2_recursive_closed_disagree 5 (by norm_num) (by norm_num)

/-- C3: on 0 <= n <= 1000 gauss_closed computes the exact triangular
number n * (n + 1) / 2 with the stated literal values at
0, 1, 2, 5 and 10. -/
theorem C3_closed_form_small_range :
    (∀ n : Int, 0 ≤ n → n ≤ 1000 → gauss_closed n = n * (n + 1) / 2) ∧
    gauss_closed 0 = 0 ∧ gauss_closed 1 = 1 ∧ gauss_closed 2 = 3 ∧
    gauss_closed 5 = 15 ∧ gauss_closed 10 = 55 := by
  refine ⟨?_, by decide, by decide, by decide, by decide, by decide⟩
  intro n h0 h1
  obtain ⟨t, ht⟩ := Int.even_mul_succ_self n
  rw [gauss_closed_small_val (by omega) (by omega) ht, ht,
    show t + t = 2 * t by ring, Int.mul_ediv_cancel_left _ (by norm_num)]

/-- Witness for C3 at n = 7. -/
theorem C3_witness : gauss_closed 7 = 7 * (7 + 1) / 2 :=
  C3_closed_form_small_range.1 7 (by norm_num) (by norm_num)

/-- C4: the recursion of gauss_ref terminates for every n >= 1 — fuel
n suffices and fuel n - 1 does not, so the base case is reached after
exactly n - 1 recursive steps — while for every n <= 0 no fuel ever
reaches the base case: the recursion does not terminate. -/
theorem C4_termination (n : Int) :
    (1 ≤ n → gauss_ref_fuel n.toNat n = some n ∧
      gauss_ref_fuel (n.toNat - 1) n = none) ∧
    (n ≤ 0 → ∀ fuel : Nat, gauss_ref_fuel fuel n = none) := by
  constructor
  · intro h
    exact ⟨gauss_ref_fuel_toNat h, gauss_ref_fuel_short _ _ (by omega)⟩
  · intro h fuel
    exact gauss_ref_fuel_nonpos fuel n h

/-- Witness for C4 at n = 4 and n = -2. -/
theorem C4_witness :
    (gauss_ref_fuel (4 : Int).toNat 4 = some 4 ∧
      gauss_ref_fuel ((4 : Int).toNat - 1) 4 = none) ∧
    gauss_ref_fuel 9 (-2) = none :=
  ⟨(C4_termination 4).1 (by norm_num), (C4_termination (-2)).2 (by norm_num) 9⟩

/-- C5 counterexample: with the 32-bit wraparound semantics of the
native multiplication in the source, gauss_closed at 65536 does not
return the 64-bit-widened value 2147516416. -/
theorem C5_counterexample : gauss_closed 65536 ≠ 2147516416 := by decide

/-- C5 amended: gauss_closed(65536) equals 32768, the wrapped result
of the native 32-bit multiplication (65536 * 65537 wraps to 65536,
halved to 32768), not the widened value 2147516416. -/
theorem C5_amended_wrapped_value : gauss_closed 65536 = 32768 := by decide

/-- C6: on every negative n whose product n * (n + 1) is representable
in a signed 32-bit integer (-46341 <= n <= -1), gauss_closed returns
n * (n + 1) divided by 2 with truncation toward zero, and it is defined
(total) on all inputs, returning 0 at 0. -/
theorem C6_negative_inputs :
    (∀ n : Int, -46341 ≤ n → n ≤ -1 →
      gauss_closed n = (n * (n + 1)).tdiv 2) ∧
    gauss_closed 0 = 0 :=
  ⟨fun _ h1 h2 => gauss_closed_small h1 (by omega), by decide⟩

/-- Witness for C6 at n = -3. -/
theorem C6_witness : gauss_closed (-3) = ((-3 : Int) * (-3 + 1)).tdiv 2 :=
  C6_negative_inputs.1 (-3) (by norm_num) (by norm_num)

/-- C7: both embedded functions are deterministic pure functions: any
two terminating evaluations of gauss_ref at the same input return the
same value regardless of fuel, and gauss_closed returns equal outputs
on equal inputs. -/
theorem C7_determinism :
    (∀ (f1 f2 : Nat) (n v1 v2 : Int), gauss_ref_fuel f1 n = some v1 →
      gauss_ref_fuel f2 n = some v2 → v1 = v2) ∧
    (∀ n m : Int, n = m → gauss_closed n = gauss_closed m) :=
  ⟨fun _ _ _ _ _ h1 h2 => gauss_ref_fuel_det h1 h2,
    fun _ _ h => congrArg gauss_closed h⟩

/-- Witness for C7: two evaluations of gauss_ref at 3 with fuels 5 and
9 agree, and gauss_closed is congruent at 4. -/
theorem C7_witness : (3 : Int) = 3 ∧ gauss_closed 4 = gauss_closed 4 :=
  ⟨C7_determinism.1 5 9 3 3 3 (by decide) (by decide),
    C7_determinism.2 4 4 rfl⟩

/-- C8: under two's-complement wraparound semantics, gauss_closed
applied to the wrapped value of -(n + 1) equals gauss_closed n for
every 32-bit signed n: the products n(n+1) and (-(n+1))(-n) wrap to
the same value. -/
theorem C8_reflection_symmetry (n : Int) (h1 : -(2 ^ 31) ≤ n)
    (h2 : n < 2 ^ 31) :
    gauss_closed (wrap32 (-(n + 1))) = gauss_closed n := by
  rw [gauss_closed_wrap, gauss_closed_wrap]
  congr 1
  refine wrap32_congr ?_
  have e1 : wrap32 (-(n + 1)) % 2 ^ 32 = (-(n + 1)) % 2 ^ 32 := wrap32_emod _
  have e3 := emod_mul_congr e1 (emod_add_one_congr e1)
  refine e3.trans ?_
  rw [show (-(n + 1)) * (-(n + 1) + 1) = n * (n + 1) from by ring]

/-- Witness for C8 at n = 5. -/
theorem C8_witness : gauss_closed (wrap32 (-((5 : Int) + 1))) = gauss_closed 5 :=
  C8_reflection_symmetry 5 (by norm_num) (by norm_num)

/-- C9: for every 32-bit signed n the wrapped product n * (n + 1) is
even and the truncating division by 2 in gauss_closed is exact: twice
the returned value equals the wrapped product. -/
theorem C9_division_exact (n : Int) (h1 : -(2 ^ 31) ≤ n) (h2 : n < 2 ^ 31) :
    Even (wrap32 (n * wrap32 (n + 1))) ∧
    2 * gauss_closed n = wrap32 (n * wrap32 (n + 1)) := by
  refine ⟨⟨gauss_closed n, ?_⟩, gauss_closed_exact n⟩
  have h := gauss_closed_exact n
  omega

/-- Witness for C9 at n = 5. -/
theorem C9_witness :
    Even (wrap32 ((5 : Int) * wrap32 (5 + 1))) ∧
    2 * gauss_closed 5 = wrap32 ((5 : Int) * wrap32 (5 + 1)) :=
  C9_division_exact 5 (by norm_num) (by norm_num)

/-- C10: gauss_closed is strictly increasing on the overflow-free
non-negative domain 0 <= a < b <= 46340. -/
theorem C10_strict_mono (a b : Int) (h0 : 0 ≤ a) (hab : a < b)
    (hb : b ≤ 46340) : gauss_closed a < gauss_closed b := by
  obtain ⟨ta, hta⟩ := Int.even_mul_succ_self a
  obtain ⟨tb, htb⟩ := Int.even_mul_succ_self b
  rw [gauss_closed_small_val (by omega) (by omega) hta,
    gauss_closed_small_val (by omega) (by omega) htb]
  have hlt : a * (a + 1) < b * (b + 1) := by
    nlinarith [mul_pos (show (0 : Int) < b - a by omega)
      (show (0 : Int) < b + a + 1 by omega)]
  linarith

/-- Witness for C10 at a = 2, b = 5. -/
theorem C10_witness : gauss_closed 2 < gauss_closed 5 :=
  C10_strict_mono 2 5 (by norm_num) (by norm_num) (by norm_num)
